import Mathlib

/-!
A verification development for the `codeowners` library: a shallow embedding
of the CODEOWNERS rule parser (`parse.go`), the ruleset lookup
(`codeowners.go`), and the glob pattern compiler, together with theorems
about their behaviour.

Strings are embedded as `List Char` (Go byte indices and Lean character
indices coincide on the ASCII inputs the theorems use).  Fallible Go
functions returning `(T, error)` are embedded as `Except`-valued functions
with a structured error type mirroring the `fmt.Errorf` format strings.
-/

deriving instance DecidableEq for Except

namespace Codeowners

/-- The character set trimmed by Go's `strings.TrimSpace` (ASCII part). -/
def isSpaceGo (c : Char) : Bool :=
  c == ' ' || c == '\t' || c == '\n' || c == '\r' || c == '\x0b' || c == '\x0c'

/-- Embedding of Go `strings.TrimSpace` on character lists. -/
def trimSpace (s : List Char) : List Char :=
  ((s.dropWhile isSpaceGo).reverse.dropWhile isSpaceGo).reverse

/-! ## Pattern compiler

Modelled from the spec: the pattern compiler (`newPattern` / `pattern.match`
in `match.go`) is not part of the sources provided, only its tests and
callers are.  The definitions below follow spec §4.1 "Pattern Compiler"
literally: anchoring by an interior `/`, stripping one leading and one
trailing `/`, left-to-right translation into matching elements (escape,
single star, segment-bounded double star, `?`, character class, literal),
and a terminator requiring `/` for directory-only patterns and
end-of-string-or-`/` otherwise. -/

/-- One element of a compiled matching expression (spec §4.1 step 3). -/
inductive RElem
  | lit (c : Char)
  /-- `?`: exactly one character excluding `/`. -/
  | one
  /-- single `*`: any run of characters excluding `/`. -/
  | star
  /-- `[...]`: one character from the listed literals. -/
  | cls (cs : List Char)
  /-- segment-bounded `**/`: zero or more whole path segments. -/
  | manySegs
  /-- segment-bounded trailing `**`: any remaining characters, across `/`. -/
  | manyAll
deriving DecidableEq, Repr

/-- Pattern compilation errors (spec §4.1 contract and §7). -/
inductive PatternErr
  | emptyPattern
  | unterminatedClass
deriving DecidableEq, Repr

mutual

/-- Translate pattern text into matching elements (spec §4.1 step 3).  The
Bool argument records whether we are at a path-segment boundary
(start-of-pattern or just after `/`), which gates double-star recognition. -/
def translate : List Char → Bool → Except PatternErr (List RElem)
  | [], _ => .ok []
  | ['\\'], _ => .ok [.lit '\\']
  | '\\' :: c :: rest, _ => (translate rest false).map (.lit c :: ·)
  | '[' :: rest, _ => transClass rest false []
  | '*' :: '*' :: rest, atBoundary =>
      if atBoundary && (rest.isEmpty || rest.head? == some '/') then
        match rest with
        | [] => .ok [.manyAll]
        | _ :: rest' => (translate rest' true).map (.manySegs :: ·)
      else (translate rest false).map (fun es => .star :: .star :: es)
  | '*' :: rest, _ => (translate rest false).map (.star :: ·)
  | '?' :: rest, _ => (translate rest false).map (.one :: ·)
  | '/' :: rest, _ => (translate rest true).map (.lit '/' :: ·)
  | c :: rest, _ => (translate rest false).map (.lit c :: ·)

/-- Scan a character class body up to the closing `]`: characters are
literal except escaped ones (the Bool argument records a pending escape);
an unterminated class is an error (spec §4.1 step 3). -/
def transClass : List Char → Bool → List Char → Except PatternErr (List RElem)
  | [], _, _ => .error .unterminatedClass
  | c :: rest, true, acc => transClass rest false (c :: acc)
  | ']' :: rest, false, acc => (translate rest false).map (.cls acc.reverse :: ·)
  | '\\' :: rest, false, acc => transClass rest true acc
  | c :: rest, false, acc => transClass rest false (c :: acc)

end

/-- A compiled pattern: the raw source text plus the matcher data
(spec §3 "Pattern": raw source string + compiled matcher). -/
structure Pattern where
  source : List Char
  anchored : Bool
  dirOnly : Bool
  body : List RElem
deriving DecidableEq, Repr

/-- The Go zero value `pattern{}` (the `r := Rule{}` initializer). -/
def emptyPattern : Pattern := ⟨[], false, false, []⟩

/-- Strip one leading and one trailing `/` if present (spec §4.1 step 2). -/
def stripSlashes (ps : List Char) : List Char :=
  let p1 := if ps.head? == some '/' then ps.tail else ps
  if p1.getLast? == some '/' then p1.dropLast else p1

/-- Modelled from the spec: `compile(patternString) → Pattern | error`
(spec §4.1 steps 1-3); the terminator of step 4 is applied at match time.
A pattern is anchored when it contains a `/` that is not its last
character, and directory-only when it ends with `/`. -/
def newPattern (ps : List Char) : Except PatternErr Pattern :=
  if ps.isEmpty then .error .emptyPattern
  else
    (translate (stripSlashes ps) true).map fun es =>
      ⟨ps, ps.dropLast.contains '/', ps.getLast? == some '/', es⟩

/-- The terminator of spec §4.1 step 4: a directory-only pattern requires a
following `/` in the tested path; otherwise the match must end at
end-of-string or at a `/` boundary. -/
inductive Term
  | endOrSlash
  | slashOnly
deriving DecidableEq, Repr

def termOk : Term → List Char → Bool
  | .endOrSlash, [] => true
  | .endOrSlash, c :: _ => c == '/'
  | .slashOnly, [] => false
  | .slashOnly, c :: _ => c == '/'

/-- Match helper for a single `*`: skip any run of non-`/` characters,
trying the continuation `f` at every split point. -/
def starScan (f : List Char → Bool) : List Char → Bool
  | [] => f []
  | c :: cs => f (c :: cs) || (c != '/' && starScan f cs)

/-- Match helper for `**/`: resume the continuation `f` right after any `/`
of the path (zero-or-more whole segments skipped; the zero case is handled
by the caller). -/
def seekScan (f : List Char → Bool) : List Char → Bool
  | [] => false
  | c :: cs => (c == '/' && f cs) || seekScan f cs

/-- Match helper for a trailing `**`: skip any run of characters (crossing
`/`), trying the continuation `f` at every split point. -/
def allScan (f : List Char → Bool) : List Char → Bool
  | [] => f []
  | c :: cs => f (c :: cs) || allScan f cs

/-- Match a sequence of elements against a path prefix, then the terminator
against the remainder (spec §4.1 steps 3-4). -/
def mb (term : Term) : List RElem → List Char → Bool
  | [], cs => termOk term cs
  | .lit a :: es, cs =>
      match cs with
      | [] => false
      | c :: cs' => a == c && mb term es cs'
  | .one :: es, cs =>
      match cs with
      | [] => false
      | c :: cs' => c != '/' && mb term es cs'
  | .cls l :: es, cs =>
      match cs with
      | [] => false
      | c :: cs' => l.contains c && mb term es cs'
  | .star :: es, cs => starScan (mb term es) cs
  | .manySegs :: es, cs => mb term es cs || seekScan (mb term es) cs
  | .manyAll :: es, cs => allScan (mb term es) cs

theorem starScan_append {f : List Char → Bool} {xs : List Char}
    (hf : ∀ cs, f cs = true → f (cs ++ xs) = true) :
    ∀ cs, starScan f cs = true → starScan f (cs ++ xs) = true := by
  have base : ∀ ys, f ys = true → starScan f ys = true := by
    intro ys h
    cases ys <;> simp [starScan, h]
  intro cs h
  induction cs with
  | nil => exact base xs (by simpa using hf [] (by simpa [starScan] using h))
  | cons c cs ih =>
    simp only [starScan, Bool.or_eq_true, Bool.and_eq_true] at h
    simp only [List.cons_append, starScan, Bool.or_eq_true, Bool.and_eq_true]
    rcases h with h | ⟨hc, h⟩
    · exact Or.inl (hf _ h)
    · exact Or.inr ⟨hc, ih h⟩

theorem seekScan_append {f : List Char → Bool} {xs : List Char}
    (hf : ∀ cs, f cs = true → f (cs ++ xs) = true) :
    ∀ cs, seekScan f cs = true → seekScan f (cs ++ xs) = true := by
  intro cs h
  induction cs with
  | nil => simp [seekScan] at h
  | cons c cs ih =>
    simp only [seekScan, Bool.or_eq_true, Bool.and_eq_true] at h
    simp only [List.cons_append, seekScan, Bool.or_eq_true, Bool.and_eq_true]
    rcases h with ⟨hc, h⟩ | h
    · exact Or.inl ⟨hc, hf _ h⟩
    · exact Or.inr (ih h)

theorem allScan_append {f : List Char → Bool} {xs : List Char}
    (hf : ∀ cs, f cs = true → f (cs ++ xs) = true) :
    ∀ cs, allScan f cs = true → allScan f (cs ++ xs) = true := by
  have base : ∀ ys, f ys = true → allScan f ys = true := by
    intro ys h
    cases ys <;> simp [allScan, h]
  intro cs h
  induction cs with
  | nil => exact base xs (by simpa using hf [] (by simpa [allScan] using h))
  | cons c cs ih =>
    simp only [allScan, Bool.or_eq_true] at h
    simp only [List.cons_append, allScan, Bool.or_eq_true]
    rcases h with h | h
    · exact Or.inl (hf _ h)
    · exact Or.inr (ih h)

/-- With the directory-only terminator, a successful match survives
appending further characters to the path: the terminator only inspects the
single `/` right after the matched prefix. -/
theorem mb_slashOnly_append (xs : List Char) :
    ∀ (es : List RElem) (cs : List Char),
      mb .slashOnly es cs = true → mb .slashOnly es (cs ++ xs) = true := by
  intro es
  induction es with
  | nil =>
    intro cs h
    cases cs with
    | nil => simp [mb, termOk] at h
    | cons c cs => simpa [mb, termOk] using h
  | cons e es ih =>
    intro cs h
    cases e with
    | lit a =>
      cases cs with
      | nil => simp [mb] at h
      | cons c cs =>
        simp only [mb, Bool.and_eq_true] at h
        simp only [List.cons_append, mb, Bool.and_eq_true]
        exact ⟨h.1, ih cs h.2⟩
    | one =>
      cases cs with
      | nil => simp [mb] at h
      | cons c cs =>
        simp only [mb, Bool.and_eq_true] at h
        simp only [List.cons_append, mb, Bool.and_eq_true]
        exact ⟨h.1, ih cs h.2⟩
    | cls l =>
      cases cs with
      | nil => simp [mb] at h
      | cons c cs =>
        simp only [mb, Bool.and_eq_true] at h
        simp only [List.cons_append, mb, Bool.and_eq_true]
        exact ⟨h.1, ih cs h.2⟩
    | star =>
      simp only [mb] at h ⊢
      exact starScan_append ih cs h
    | manySegs =>
      simp only [mb, Bool.or_eq_true] at h ⊢
      rcases h with h | h
      · exact Or.inl (ih cs h)
      · exact Or.inr (seekScan_append ih cs h)
    | manyAll =>
      simp only [mb] at h ⊢
      exact allScan_append ih cs h


/-- Suffixes of the path starting just after each `/` (the alternative start
positions of an unanchored pattern, spec §4.1 step 1). -/
def starts : List Char → List (List Char)
  | [] => []
  | c :: cs => if c = '/' then cs :: starts cs else starts cs

/-- Modelled from the spec: `pattern.match(path)` (spec §4.1).  Anchored
patterns match from position 0 only; unanchored ones also from just after
any `/`. -/
def patMatch (p : Pattern) (path : List Char) : Bool :=
  let term := if p.dirOnly then Term.slashOnly else Term.endOrSlash
  mb term p.body path || (!p.anchored && (starts path).any fun s => mb term p.body s)

/-- Convenience wrapper: compile a pattern source and match a path. -/
def compiledMatch (pat path : String) : Option Bool :=
  match newPattern pat.data with
  | .error _ => none
  | .ok p => some (patMatch p path.data)

theorem starts_append (cs xs : List Char) :
    starts (cs ++ xs) = (starts cs).map (· ++ xs) ++ starts xs := by
  induction cs with
  | nil => simp [starts]
  | cons c cs ih =>
    by_cases hc : c = '/' <;> simp [starts, hc, ih]

theorem newPattern_ok_fields {src : List Char} {pat : Pattern}
    (h : newPattern src = .ok pat) :
    pat.source = src ∧ pat.dirOnly = (src.getLast? == some '/') := by
  unfold newPattern at h
  split at h
  · exact absurd h (by simp)
  · rcases htr : translate (stripSlashes src) true with e | es <;> rw [htr] at h
    · exact absurd h (by simp [Except.map])
    · simp only [Except.map, Except.ok.injEq] at h
      rw [← h]
      exact ⟨rfl, rfl⟩

/-- C1-C10 theorems follow.  C2: for every successfully compiled pattern
that is directory-only (its source ends with `/`) and all paths `p`, `q`:
if the pattern matches `p` then it also matches `p ++ "/" ++ q`
(directory patterns match their contents). -/
theorem dirOnly_match_extends_into_directory
    (src : List Char) (pat : Pattern) (p q : List Char)
    (hcomp : newPattern src = .ok pat)
    (hdir : src.getLast? = some '/')
    (hm : patMatch pat p = true) :
    patMatch pat (p ++ '/' :: q) = true := by
  obtain ⟨hsrc, hdirp⟩ := newPattern_ok_fields hcomp
  have hd : pat.dirOnly = true := by rw [hdirp, hdir]; simp
  simp only [patMatch, hd, if_true, Bool.or_eq_true, Bool.and_eq_true,
    List.any_eq_true] at hm ⊢
  rcases hm with hm | ⟨hanch, s, hsmem, hs⟩
  · exact Or.inl (mb_slashOnly_append ('/' :: q) pat.body p hm)
  · refine Or.inr ⟨hanch, s ++ '/' :: q, ?_, mb_slashOnly_append ('/' :: q) pat.body s hs⟩
    rw [starts_append]
    exact List.mem_append_left _ (List.mem_map.mpr ⟨s, hsmem, rfl⟩)

/-- Witness for C2 at a concrete input: pattern `docs/` matches
`docs/x`, hence also `docs/x/y`. -/
theorem dirOnly_match_extends_into_directory_witness :
    newPattern "docs/".data =
      .ok ⟨"docs/".data, false, true, [.lit 'd', .lit 'o', .lit 'c', .lit 's']⟩ ∧
    "docs/".data.getLast? = some '/' ∧
    patMatch ⟨"docs/".data, false, true, [.lit 'd', .lit 'o', .lit 'c', .lit 's']⟩
      "docs/x".data = true ∧
    patMatch ⟨"docs/".data, false, true, [.lit 'd', .lit 'o', .lit 'c', .lit 's']⟩
      ("docs/x".data ++ '/' :: "y".data) = true :=
  ⟨by rfl, by decide, by decide,
   dirOnly_match_extends_into_directory "docs/".data _ "docs/x".data "y".data
     (by rfl) (by decide) (by decide)⟩

/-! ## Owners and owner matchers (parse.go)

The owner type constants `EmailOwner` etc. are declared outside the
provided sources; their string values `"email"`, `"team"`, `"username"`,
`"group"` come from the spec's data model and the test expectations. -/

/-- `Owner` (codeowners.go): a value and a type tag. -/
structure Owner where
  value : List Char
  type : List Char
deriving DecidableEq, Repr

def EmailOwner : List Char := "email".data

def TeamOwner : List Char := "team".data

def UsernameOwner : List Char := "username".data

def GroupOwner : List Char := "group".data

/-- Owner classification errors: `ErrInvalidOwnerFormat` (parse.go), plus a
constructor for any other error a custom matcher may return. -/
inductive OwnerErr
  | invalidFormat (owner : List Char)
  | custom (msg : List Char)
deriving DecidableEq, Repr

/-- The outcome of one `OwnerMatcher.Match` call (parse.go): an owner, the
sentinel `ErrNoMatch`, or another error. -/
inductive MatchRes
  | ok (o : Owner)
  | noMatch
  | fail (e : OwnerErr)
deriving DecidableEq, Repr

def OwnerMatcher := List Char → MatchRes

/-- `[A-Za-z]` -/
def isAlphaGo (c : Char) : Bool :=
  ('A' ≤ c && c ≤ 'Z') || ('a' ≤ c && c ≤ 'z')

/-- `[0-9]` -/
def isDigitGo (c : Char) : Bool :=
  '0' ≤ c && c ≤ '9'

def isAlnumGo (c : Char) : Bool :=
  isAlphaGo c || isDigitGo c

def emailLocalChar (c : Char) : Bool :=
  isAlnumGo c || c == '.' || c == '_' || c == '%' || c == '+' || c == '-'

def emailDomainChar (c : Char) : Bool :=
  isAlnumGo c || c == '.' || c == '-'

def teamLeftChar (c : Char) : Bool :=
  isAlnumGo c || c == '-'

def teamRightChar (c : Char) : Bool :=
  isAlnumGo c || c == '_' || c == '-'

def usernameChar (c : Char) : Bool :=
  isAlnumGo c || c == '-' || c == '_'

def groupSegChar (c : Char) : Bool :=
  isAlnumGo c || c == '-' || c == '_'

/-- `emailRegexp = \A[A-Z0-9a-z._%+-]+@[A-Za-z0-9.-]+\.[A-Za-z]{2,6}\z`
(parse.go).  The regex matches `s` iff `s` splits as
`local ++ "@" ++ domain ++ "." ++ tld` with nonempty `local` over the local
class, nonempty `domain` over the domain class, and a `tld` of 2 to 6
letters; the bounded search enumerates the position `i` of the `@` and the
position `j` of the final `.`. -/
def emailMatches (s : List Char) : Bool :=
  (List.range s.length).any fun i =>
    (List.range s.length).any fun j =>
      s.get? i == some '@' && s.get? j == some '.' &&
      decide (1 ≤ i) && decide (i + 1 < j) &&
      (s.take i).all emailLocalChar &&
      ((s.drop (i + 1)).take (j - (i + 1))).all emailDomainChar &&
      decide (2 ≤ s.length - (j + 1)) && decide (s.length - (j + 1) ≤ 6) &&
      (s.drop (j + 1)).all isAlphaGo

/-- `MatchEmailOwner` (parse.go): `Owner{Value: match[0], Type: EmailOwner}`. -/
def MatchEmailOwner (s : List Char) : MatchRes :=
  if emailMatches s then .ok ⟨s, EmailOwner⟩ else .noMatch

/-- `teamRegexp = \A@([a-zA-Z0-9-]+/[a-zA-Z0-9_-]+)\z` (parse.go): a `@`,
then a nonempty run over the left class, one `/`, and a nonempty run over
the right class; the capture group is everything after the `@`. -/
def MatchTeamOwner (s : List Char) : MatchRes :=
  match s with
  | '@' :: rest =>
    if (List.range rest.length).any fun k =>
        rest.get? k == some '/' && decide (1 ≤ k) && decide (k + 1 < rest.length) &&
        (rest.take k).all teamLeftChar && (rest.drop (k + 1)).all teamRightChar
    then .ok ⟨rest, TeamOwner⟩ else .noMatch
  | _ => .noMatch

/-- `usernameRegexp = \A@([a-zA-Z0-9-_]+)\z` (parse.go). -/
def MatchUsernameOwner (s : List Char) : MatchRes :=
  match s with
  | '@' :: rest =>
    if !rest.isEmpty && rest.all usernameChar then .ok ⟨rest, UsernameOwner⟩
    else .noMatch
  | _ => .noMatch

/-- `groupRegexp = \A@(([a-zA-Z0-9-_]+)(/[a-zA-Z0-9-_]+)*)\z` (parse.go):
after the `@`, one or more nonempty `/`-separated segments over the
segment class. -/
def MatchGroupOwner (s : List Char) : MatchRes :=
  match s with
  | '@' :: rest =>
    if (rest.splitOn '/').all (fun seg => !seg.isEmpty && seg.all groupSegChar)
    then .ok ⟨rest, GroupOwner⟩ else .noMatch
  | _ => .noMatch

/-- `DefaultOwnerMatchers` (parse.go 48-53). -/
def DefaultOwnerMatchers : List OwnerMatcher :=
  [MatchEmailOwner, MatchTeamOwner, MatchUsernameOwner, MatchGroupOwner]

/-- `newOwner` (parse.go 338-353): try the matchers in order; skip on
`ErrNoMatch`, propagate any other matcher error, and fall through to
`ErrInvalidOwnerFormat` when the list is exhausted. -/
def newOwner (s : List Char) : List OwnerMatcher → Except OwnerErr Owner
  | [] => .error (.invalidFormat s)
  | m :: mm =>
    match m s with
    | .ok o => .ok o
    | .noMatch => newOwner s mm
    | .fail e => .error e

/-! ## The rule/section parser (parse.go) -/

/-- Structured parse errors mirroring the `fmt.Errorf` calls in parse.go:
`unexpectedChar` is `"unexpected character '%c' at position %d"`,
`endOfRule` is `"unexpected end of rule"`, `ownerErr` is an owner
classification error wrapped with `" at position %d"`, the `section...`
variants additionally carry the `"section: "` prefix, and `line` is
ParseFile's `"line %d: %w"` wrapper. -/
inductive ParseErr
  | unexpectedChar (c : Char) (pos : Nat)
  | endOfRule
  | ownerErr (e : OwnerErr) (pos : Nat)
  | patternErr (e : PatternErr)
  | sectionUnexpectedChar (c : Char) (pos : Nat)
  | sectionOwnerErr (e : OwnerErr) (pos : Nat)
  | line (n : Nat) (e : ParseErr)
deriving DecidableEq, Repr

/-- `Rule` (codeowners.go). -/
structure Rule where
  lineNumber : Nat
  pattern : Pattern
  owners : List Owner
  comment : List Char
deriving DecidableEq, Repr

/-- `Section`: name, owners and comment (the fields parseSection sets). -/
structure Section where
  name : List Char
  owners : List Owner
  comment : List Char
deriving DecidableEq, Repr

/-- `isWhitespace` (parse.go 355-357). -/
def isWhitespace (c : Char) : Bool :=
  c == ' ' || c == '\t' || c == '\n'

/-- `isAlphanumeric` (parse.go 359-361). -/
def isAlphanumeric (c : Char) : Bool :=
  ('A' ≤ c && c ≤ 'Z') || ('a' ≤ c && c ≤ 'z') || ('0' ≤ c && c ≤ '9')

/-- `isPatternChar` (parse.go 363-370). -/
def isPatternChar (c : Char) : Bool :=
  c == '*' || c == '?' || c == '.' || c == '/' || c == '@' || c == '_' ||
  c == '+' || c == '-' || c == '\\' || isAlphanumeric c

/-- `isOwnersChar` (parse.go 372-379). -/
def isOwnersChar (c : Char) : Bool :=
  c == '.' || c == '@' || c == '/' || c == '_' || c == '%' || c == '+' ||
  c == '-' || isAlphanumeric c

/-- `isSectionChar` (parse.go 381-388). -/
def isSectionChar (c : Char) : Bool :=
  c == '.' || c == '@' || c == '/' || c == '_' || c == '%' || c == '+' ||
  c == '-' || isAlphanumeric c

/-- `isSectionBraces` (parse.go 390-397). -/
def isSectionBraces (c : Char) : Bool :=
  c == '[' || c == ']'

/-- The two states of parseRule's machine (`statePattern`, `stateOwners`). -/
inductive PState
  | pattern
  | owners
deriving DecidableEq, Repr

/-- The machine state carried out of parseRule's per-character loop. -/
structure RuleLoopOut where
  state : PState
  buf : List Char
  pat : Pattern
  owners : List Owner
  comment : List Char
deriving DecidableEq, Repr

/-- The per-character loop of parseRule (parse.go 242-302).  `orig` is the
untrimmed line (the Go code slices `ruleStr[i+1:]` for the comment), `i`
the index into the trimmed line, `cs` its remaining characters.  Note the
`#` check runs before the state dispatch and ignores the escape flag, and
that `escaped` is reset after every pattern-state step except the
backslash case (the Go `continue`). -/
def ruleLoop (orig : List Char) (mm : List OwnerMatcher) :
    Nat → List Char → PState → Bool → List Char → Pattern → List Owner →
    Except ParseErr RuleLoopOut
  | _, [], st, _, buf, pat, ows => .ok ⟨st, buf, pat, ows, []⟩
  | i, c :: cs, st, esc, buf, pat, ows =>
    if c = '#' then .ok ⟨st, buf, pat, ows, trimSpace (orig.drop (i + 1))⟩
    else
      match st with
      | .pattern =>
        if c = '\\' then
          ruleLoop orig mm (i + 1) cs .pattern true (buf ++ [c]) pat ows
        else if isWhitespace c && !esc then
          match newPattern buf with
          | .error e => .error (.patternErr e)
          | .ok p => ruleLoop orig mm (i + 1) cs .owners false [] p ows
        else if isPatternChar c || (isWhitespace c && esc) then
          ruleLoop orig mm (i + 1) cs .pattern false (buf ++ [c]) pat ows
        else .error (.unexpectedChar c (i + 1))
      | .owners =>
        if isWhitespace c then
          if buf.isEmpty then ruleLoop orig mm (i + 1) cs .owners esc buf pat ows
          else
            match newOwner buf mm with
            | .error e => .error (.ownerErr e (i + 1 - buf.length))
            | .ok o => ruleLoop orig mm (i + 1) cs .owners esc [] pat (ows ++ [o])
        else if isOwnersChar c then
          ruleLoop orig mm (i + 1) cs .owners esc (buf ++ [c]) pat ows
        else .error (.unexpectedChar c (i + 1))

/-- `parseRule` (parse.go 236-335): run the loop over the trimmed line,
then the end-of-line switch: in the pattern state an empty buffer is
"unexpected end of rule" and a nonempty one is compiled; in the owners
state a leftover buffer is classified (at position `len(ruleStr)+1-len`);
finally a rule with no explicit owners receives the inherited owners. -/
def parseRule (ruleStr : List Char) (mm : List OwnerMatcher)
    (inheritedOwners : List Owner) : Except ParseErr Rule :=
  match ruleLoop ruleStr mm 0 (trimSpace ruleStr) .pattern false [] emptyPattern [] with
  | .error e => .error e
  | .ok res =>
    let finish : Pattern → List Owner → Except ParseErr Rule := fun p ows =>
      .ok ⟨0, p, if ows.isEmpty then inheritedOwners else ows, res.comment⟩
    match res.state with
    | .pattern =>
      if res.buf.isEmpty then .error .endOfRule
      else
        match newPattern res.buf with
        | .error e => .error (.patternErr e)
        | .ok p => finish p res.owners
    | .owners =>
      if res.buf.isEmpty then finish res.pat res.owners
      else
        match newOwner res.buf mm with
        | .error e => .error (.ownerErr e (ruleStr.length + 1 - res.buf.length))
        | .ok o => finish res.pat (res.owners ++ [o])

/-- The two states of parseSection's machine (`stateSection`,
`stateOwners`). -/
inductive SState
  | sect
  | owners
deriving DecidableEq, Repr

/-- The machine state carried out of parseSection's per-character loop. -/
structure SectionLoopOut where
  state : SState
  buf : List Char
  name : List Char
  owners : List Owner
  comment : List Char
deriving DecidableEq, Repr

/-- The per-character loop of parseSection (parse.go 152-208).  Case order
follows the Go switch: backslash, section braces (skipped), section chars
and escaped whitespace (buffered), unescaped whitespace (start owners).
parseSection never resets `escaped` inside the loop. -/
def sectionLoop (orig : List Char) (mm : List OwnerMatcher) :
    Nat → List Char → SState → Bool → List Char → List Char → List Owner →
    Except ParseErr SectionLoopOut
  | _, [], st, _, buf, name, ows => .ok ⟨st, buf, name, ows, []⟩
  | i, c :: cs, st, esc, buf, name, ows =>
    if c = '#' then .ok ⟨st, buf, name, ows, trimSpace (orig.drop (i + 1))⟩
    else
      match st with
      | .sect =>
        if c = '\\' then
          sectionLoop orig mm (i + 1) cs .sect true (buf ++ [c]) name ows
        else if isSectionBraces c then
          sectionLoop orig mm (i + 1) cs .sect esc buf name ows
        else if isSectionChar c || (isWhitespace c && esc) then
          sectionLoop orig mm (i + 1) cs .sect esc (buf ++ [c]) name ows
        else if isWhitespace c && !esc then
          sectionLoop orig mm (i + 1) cs .owners esc [] buf ows
        else .error (.sectionUnexpectedChar c (i + 1))
      | .owners =>
        if isWhitespace c then
          if buf.isEmpty then sectionLoop orig mm (i + 1) cs .owners esc buf name ows
          else
            match newOwner buf mm with
            | .error e => .error (.sectionOwnerErr e (i + 1 - buf.length))
            | .ok o => sectionLoop orig mm (i + 1) cs .owners esc [] name (ows ++ [o])
        else if isOwnersChar c then
          sectionLoop orig mm (i + 1) cs .owners esc (buf ++ [c]) name ows
        else .error (.sectionUnexpectedChar c (i + 1))

/-- `parseSection` (parse.go 146-233).  At end of line, in the section
state the buffer becomes the name; in the owners state a leftover buffer
is classified — with the plain (non-`section:`) error of parse.go line
224. -/
def parseSection (ruleStr : List Char) (mm : List OwnerMatcher) :
    Except ParseErr Section :=
  match sectionLoop ruleStr mm 0 (trimSpace ruleStr) .sect false [] [] [] with
  | .error e => .error e
  | .ok res =>
    match res.state with
    | .sect => .ok ⟨res.buf, res.owners, res.comment⟩
    | .owners =>
      if res.buf.isEmpty then .ok ⟨res.name, res.owners, res.comment⟩
      else
        match newOwner res.buf mm with
        | .error e => .error (.ownerErr e (ruleStr.length + 1 - res.buf.length))
        | .ok o => .ok ⟨res.name, res.owners ++ [o], res.comment⟩

/-- The scan loop of ParseFile (parse.go 105-135), processing the lines in
order while threading the line counter, the current section owners and the
accumulated rules; it stops at the first failing line, wrapping its error
with the 1-based line number. -/
def runLines (mm : List OwnerMatcher) :
    List (List Char) → Nat → List Owner → List Rule →
    Except ParseErr (Nat × List Owner × List Rule)
  | [], lineNo, sectionOwners, rules => .ok (lineNo, sectionOwners, rules)
  | ln :: rest, lineNo, sectionOwners, rules =>
    let n := lineNo + 1
    if (trimSpace ln).isEmpty || ln.head? == some '#' then
      runLines mm rest n sectionOwners rules
    else if (match ln.head? with | some c => isSectionBraces c | none => false) then
      match parseSection ln mm with
      | .error e => .error (.line n e)
      | .ok s => runLines mm rest n s.owners rules
    else
      match parseRule ln mm sectionOwners with
      | .error e => .error (.line n e)
      | .ok r => runLines mm rest n sectionOwners (rules ++ [{ r with lineNumber := n }])

/-- `ParseFile` (parse.go 99-137) on the list of input lines. -/
def ParseFile (mm : List OwnerMatcher) (lines : List (List Char)) :
    Except ParseErr (List Rule) :=
  (runLines mm lines 0 [] []).map fun st => st.2.2

/-! ## Ruleset lookup (codeowners.go) -/

/-- `Rule.Match` (codeowners.go): test the rule's pattern against a path. -/
def Rule.matchPath (r : Rule) (path : List Char) : Bool :=
  patMatch r.pattern path

/-- The descending-index loop of `Ruleset.Match` (codeowners.go 8-14),
written as recursion over the reversed rule list. -/
def matchLoop (path : List Char) : List Rule → Option Rule
  | [] => none
  | rule :: rest => if rule.matchPath path then some rule else matchLoop path rest

/-- `Ruleset.Match` (codeowners.go 7-16): the last rule whose pattern
matches the path, or none. -/
def rulesetMatch (rules : List Rule) (path : List Char) : Option Rule :=
  matchLoop path rules.reverse

theorem matchLoop_eq_find? (path : List Char) :
    ∀ l : List Rule, matchLoop path l = l.find? (fun r => r.matchPath path) := by
  intro l
  induction l with
  | nil => simp [matchLoop, List.find?]
  | cons r rest ih =>
    by_cases h : r.matchPath path <;> simp [matchLoop, List.find?_cons, h, ih]

/-- C1: for every Ruleset and path, `Ruleset.Match` examines rules from
last-declared to first-declared and returns the first whose pattern matches
the path — i.e. the returned rule matches and every rule declared after it
does not (a rule with zero owners is treated like any other and stops the
search); and the result is none exactly when no rule matches. -/
theorem rulesetMatch_last_match (rules : List Rule) (path : List Char) :
    (∀ rule, rulesetMatch rules path = some rule ↔
       rule.matchPath path = true ∧
       ∃ pre suf, rules = pre ++ rule :: suf ∧
         ∀ r' ∈ suf, r'.matchPath path = false) ∧
    (rulesetMatch rules path = none ↔ ∀ r' ∈ rules, r'.matchPath path = false) := by
  constructor
  · intro rule
    rw [rulesetMatch, matchLoop_eq_find?, List.find?_eq_some]
    constructor
    · rintro ⟨hp, as, bs, hdecomp, hall⟩
      refine ⟨hp, bs.reverse, as.reverse, ?_, ?_⟩
      · have := congrArg List.reverse hdecomp
        simpa using this
      · intro r' hr'
        have := hall r' (by simpa using hr')
        simpa using this
    · rintro ⟨hp, pre, suf, hdecomp, hall⟩
      refine ⟨hp, suf.reverse, pre.reverse, ?_, ?_⟩
      · rw [hdecomp]; simp
      · intro a ha
        have := hall a (by simpa using ha)
        simpa using this
  · rw [rulesetMatch, matchLoop_eq_find?, List.find?_eq_none]
    simp [List.mem_reverse, Bool.not_eq_true]

/-- A two-rule ruleset for the C1 witness: `* @a` followed by an
explicitly-unowned `docs/` rule. -/
def demoRuleStar : Rule :=
  ⟨1, ⟨"*".data, false, false, [.star]⟩, [⟨"a".data, UsernameOwner⟩], []⟩

def demoRuleDocs : Rule :=
  ⟨2, ⟨"docs/".data, false, true, [.lit 'd', .lit 'o', .lit 'c', .lit 's']⟩, [], []⟩

/-- Witness for C1: on `docs/readme` the lookup returns the later,
zero-owner `docs/` rule, and the decomposition shows no rule after it
matches; on `src/x` it returns the `*` rule. -/
theorem rulesetMatch_last_match_witness :
    (demoRuleDocs.matchPath "docs/readme".data = true ∧
      ∃ pre suf, [demoRuleStar, demoRuleDocs] = pre ++ demoRuleDocs :: suf ∧
        ∀ r' ∈ suf, r'.matchPath "docs/readme".data = false) ∧
    rulesetMatch [demoRuleStar, demoRuleDocs] "src/x".data = some demoRuleStar :=
  ⟨((rulesetMatch_last_match [demoRuleStar, demoRuleDocs] "docs/readme".data).1
      demoRuleDocs).mp (by decide),
   by decide⟩

/-- parseRule consults `inheritedOwners` only in its final
`if len(r.Owners) == 0` step: parsing with inherited owners `inh` equals
parsing with none and then substituting `inh` for an empty owner list. -/
theorem parseRule_inherited (ruleStr : List Char) (mm : List OwnerMatcher)
    (inh : List Owner) :
    parseRule ruleStr mm inh =
      match parseRule ruleStr mm [] with
      | .ok r => .ok { r with owners := if r.owners.isEmpty then inh else r.owners }
      | .error e => .error e := by
  unfold parseRule
  rcases hlr : ruleLoop ruleStr mm 0 (trimSpace ruleStr) .pattern false [] emptyPattern []
    with e | res
  · rfl
  · rcases res with ⟨st, buf, pat, ows, comment⟩
    cases st
    · by_cases hb : buf.isEmpty
      · simp [hb]
      · rcases hnp : newPattern buf with e | p
        · simp [hb, hnp]
        · by_cases ho : ows.isEmpty <;> simp [hb, hnp, ho]
    · by_cases hb : buf.isEmpty
      · by_cases ho : ows.isEmpty <;> simp [hb, ho]
      · rcases hno : newOwner buf mm with e | o
        · simp [hb, hno]
        · simp [hb, hno]

/-- runLines processes a concatenation of line lists sequentially,
threading the line counter, section owners and accumulated rules. -/
theorem runLines_append (mm : List OwnerMatcher) (xs ys : List (List Char)) :
    ∀ n so rs, runLines mm (xs ++ ys) n so rs =
      match runLines mm xs n so rs with
      | .ok (n', so', rs') => runLines mm ys n' so' rs'
      | .error e => .error e := by
  induction xs with
  | nil => intro n so rs; simp [runLines]
  | cons l xs ih =>
    intro n so rs
    simp only [List.cons_append]
    rw [runLines, runLines]
    by_cases h1 : ((trimSpace l).isEmpty || l.head? == some '#') = true
    · simp only [h1, if_true]
      exact ih _ _ _
    · simp only [h1, if_false, Bool.false_eq_true]
      by_cases h2 : (match l.head? with | some c => isSectionBraces c | none => false) = true
      · simp only [h2, if_true]
        rcases parseSection l mm with e | s
        · rfl
        · exact ih _ _ _
      · simp only [h2, if_false, Bool.false_eq_true]
        rcases parseRule l mm so with e | r
        · rfl
        · exact ih _ _ _

/-- runLines only ever appends to the rule accumulator. -/
theorem runLines_rules_extend (mm : List OwnerMatcher) :
    ∀ (ls : List (List Char)) n so rs out,
      runLines mm ls n so rs = .ok out → ∃ δ, out.2.2 = rs ++ δ := by
  intro ls
  induction ls with
  | nil =>
    intro n so rs out h
    simp only [runLines, Except.ok.injEq] at h
    exact ⟨[], by simp [← h]⟩
  | cons l ls ih =>
    intro n so rs out h
    rw [runLines] at h
    by_cases h1 : ((trimSpace l).isEmpty || l.head? == some '#') = true
    · rw [if_pos h1] at h
      exact ih _ _ _ _ h
    · rw [if_neg h1] at h
      by_cases h2 : (match l.head? with | some c => isSectionBraces c | none => false) = true
      · rw [if_pos h2] at h
        rcases hs : parseSection l mm with e | s <;> rw [hs] at h
        · exact absurd h (by simp)
        · exact ih _ _ _ _ h
      · rw [if_neg h2] at h
        rcases hr : parseRule l mm so with e | r <;> rw [hr] at h
        · exact absurd h (by simp)
        · obtain ⟨δ, hδ⟩ := ih _ _ _ _ h
          exact ⟨{ r with lineNumber := n + 1 } :: δ, by simp [hδ]⟩

/-- C3: a rule line that declares zero explicit owners produces a Rule
whose Owners equal the owners of the most recently parsed Section at the
moment the rule is created (the `sectionOwners` threaded into parseRule),
and the lines parsed afterwards — section lines included — never change
the already-emitted Rule: its value in the final Ruleset is fixed by the
prefix alone. -/
theorem rule_inherits_section_owners_at_creation
    (mm : List OwnerMatcher) (ls1 ls2 : List (List Char)) (ln : List Char)
    (n1 : Nat) (so1 : List Owner) (rs1 : List Rule) (r0 : Rule) (out : List Rule)
    (hpre : runLines mm ls1 0 [] [] = .ok (n1, so1, rs1))
    (hskip : ((trimSpace ln).isEmpty || ln.head? == some '#') = false)
    (hsect : (match ln.head? with | some c => isSectionBraces c | none => false) = false)
    (hrule : parseRule ln mm [] = .ok r0)
    (hnoowners : r0.owners = [])
    (hok : ParseFile mm (ls1 ++ ln :: ls2) = .ok out) :
    out[rs1.length]? = some { r0 with owners := so1, lineNumber := n1 + 1 } := by
  unfold ParseFile at hok
  rw [runLines_append, hpre] at hok
  dsimp only at hok
  rw [runLines] at hok
  rw [if_neg (by simp [hskip]), if_neg (by simp [hsect])] at hok
  have hr : parseRule ln mm so1 = .ok { r0 with owners := so1 } := by
    rw [parseRule_inherited, hrule]
    simp [hnoowners]
  rw [hr] at hok
  dsimp only at hok
  rcases hrun : runLines mm ls2 (n1 + 1) so1
      (rs1 ++ [{ r0 with owners := so1, lineNumber := n1 + 1 }]) with e | st
  · rw [hrun] at hok
    exact absurd hok (by simp [Except.map])
  · rw [hrun] at hok
    simp only [Except.map, Except.ok.injEq] at hok
    obtain ⟨δ, hδ⟩ := runLines_rules_extend mm ls2 _ _ _ _ hrun
    rw [← hok, hδ, List.append_assoc]
    rw [List.getElem?_append_right (le_refl _)]
    simp

/-- Witness for C3: `[s] @user` then `src` then a later section `[t]
@other`; the `src` rule keeps owners `@user`. -/
theorem rule_inherits_section_owners_at_creation_witness :
    runLines DefaultOwnerMatchers ["[s] @user".data] 0 [] [] =
      .ok (1, [⟨"user".data, UsernameOwner⟩], []) ∧
    parseRule "src".data DefaultOwnerMatchers [] =
      .ok ⟨0, ⟨"src".data, false, false, [.lit 's', .lit 'r', .lit 'c']⟩, [], []⟩ ∧
    ParseFile DefaultOwnerMatchers
        (["[s] @user".data] ++ "src".data :: ["[t] @other".data]) =
      .ok [⟨2, ⟨"src".data, false, false, [.lit 's', .lit 'r', .lit 'c']⟩,
        [⟨"user".data, UsernameOwner⟩], []⟩] ∧
    [(⟨2, ⟨"src".data, false, false, [.lit 's', .lit 'r', .lit 'c']⟩,
        [⟨"user".data, UsernameOwner⟩], []⟩ : Rule)][([] : List Rule).length]? =
      some { (⟨0, ⟨"src".data, false, false, [.lit 's', .lit 'r', .lit 'c']⟩,
        [], []⟩ : Rule) with
          owners := [⟨"user".data, UsernameOwner⟩], lineNumber := 1 + 1 } :=
  ⟨by decide, by decide, by decide,
   rule_inherits_section_owners_at_creation DefaultOwnerMatchers
     ["[s] @user".data] ["[t] @other".data] "src".data 1
     [⟨"user".data, UsernameOwner⟩] [] _ _
     (by decide) (by decide) (by decide) (by decide) (by decide) (by decide)⟩

/-- The outcome of processing one line with ParseFile's per-line logic
(skip, section, or rule).  parseRule only reads the inherited owners after
all error paths, and parseSection reads no scan state, so whether a line
fails — and with which error — is independent of the scan state; this
definition therefore fixes the inherited owners to `[]`. -/
def lineResult (mm : List OwnerMatcher) (ln : List Char) : Except ParseErr Unit :=
  if (trimSpace ln).isEmpty || ln.head? == some '#' then .ok ()
  else if (match ln.head? with | some c => isSectionBraces c | none => false) then
    (parseSection ln mm).map fun _ => ()
  else (parseRule ln mm []).map fun _ => ()

def lineFails (mm : List OwnerMatcher) (ln : List Char) : Bool :=
  match lineResult mm ln with
  | .error _ => true
  | .ok _ => false

theorem runLines_first_error (mm : List OwnerMatcher) (fl : List Char)
    (post : List (List Char)) (e : ParseErr)
    (hfl : lineResult mm fl = .error e) :
    ∀ (pre : List (List Char)) n so rs, (∀ l ∈ pre, lineFails mm l = false) →
      runLines mm (pre ++ fl :: post) n so rs =
        .error (.line (n + pre.length + 1) e) := by
  intro pre
  induction pre with
  | nil =>
    intro n so rs _
    rw [List.nil_append, runLines]
    unfold lineResult at hfl
    by_cases h1 : ((trimSpace fl).isEmpty || fl.head? == some '#') = true
    · rw [if_pos h1] at hfl
      exact absurd hfl (by simp)
    · rw [if_neg h1] at hfl
      rw [if_neg h1]
      by_cases h2 : (match fl.head? with | some c => isSectionBraces c | none => false) = true
      · rw [if_pos h2] at hfl
        rw [if_pos h2]
        rcases hs : parseSection fl mm with e' | s <;> rw [hs] at hfl
        · simp only [Except.map, Except.error.injEq] at hfl
          simp [hfl]
        · exact absurd hfl (by simp [Except.map])
      · rw [if_neg h2] at hfl
        rw [if_neg h2]
        rcases hr : parseRule fl mm [] with e' | r <;> rw [hr] at hfl
        · simp only [Except.map, Except.error.injEq] at hfl
          rw [parseRule_inherited fl mm so, hr]
          simp [hfl]
        · exact absurd hfl (by simp [Except.map])
  | cons l pre ih =>
    intro n so rs hall
    have hl : lineFails mm l = false := hall l (by simp)
    have hrest : ∀ l' ∈ pre, lineFails mm l' = false := fun l' h => hall l' (by simp [h])
    have heq : n + (l :: pre).length + 1 = (n + 1) + pre.length + 1 := by
      simp [List.length_cons]
      omega
    rw [List.cons_append, runLines, heq]
    unfold lineFails lineResult at hl
    by_cases h1 : ((trimSpace l).isEmpty || l.head? == some '#') = true
    · rw [if_pos h1]
      exact ih (n + 1) so rs hrest
    · rw [if_neg h1] at hl
      rw [if_neg h1]
      by_cases h2 : (match l.head? with | some c => isSectionBraces c | none => false) = true
      · rw [if_pos h2] at hl
        rw [if_pos h2]
        rcases hs : parseSection l mm with e' | s <;> rw [hs] at hl
        · exact absurd hl (by simp [Except.map])
        · exact ih (n + 1) s.owners rs hrest
      · rw [if_neg h2] at hl
        rw [if_neg h2]
        rcases hr : parseRule l mm [] with e' | r0 <;> rw [hr] at hl
        · exact absurd hl (by simp [Except.map])
        · rw [parseRule_inherited l mm so, hr]
          dsimp only
          exact ih (n + 1) so _ hrest

/-- C4: if some line fails to parse, ParseFile returns the first failing
line's error wrapped with that line's 1-based number (all lines, including
skipped ones, are counted), and returns no ruleset at all: the result is
the bare error value. -/
theorem parsefile_aborts_on_first_error (mm : List OwnerMatcher)
    (pre : List (List Char)) (fl : List Char) (post : List (List Char))
    (e : ParseErr)
    (hpre : ∀ l ∈ pre, lineFails mm l = false)
    (hfl : lineResult mm fl = .error e) :
    ParseFile mm (pre ++ fl :: post) = .error (.line (pre.length + 1) e) := by
  unfold ParseFile
  rw [runLines_first_error mm fl post e hfl pre 0 [] [] hpre]
  simp [Except.map]

/-- Witness for C4: line 1 parses, line 2 (`file.txt missing-at-sign`)
fails; the whole parse returns the wrapped line-2 error and nothing else,
even though line 3 would parse fine. -/
theorem parsefile_aborts_on_first_error_witness :
    (∀ l ∈ ["a.txt @u".data], lineFails DefaultOwnerMatchers l = false) ∧
    lineResult DefaultOwnerMatchers "file.txt missing-at-sign".data =
      .error (.ownerErr (.invalidFormat "missing-at-sign".data) 10) ∧
    ParseFile DefaultOwnerMatchers
        (["a.txt @u".data] ++ "file.txt missing-at-sign".data :: ["b.txt @v".data]) =
      .error (.line ((["a.txt @u".data] : List (List Char)).length + 1)
        (.ownerErr (.invalidFormat "missing-at-sign".data) 10)) :=
  ⟨by decide, by decide,
   parsefile_aborts_on_first_error DefaultOwnerMatchers
     ["a.txt @u".data] "file.txt missing-at-sign".data ["b.txt @v".data]
     (.ownerErr (.invalidFormat "missing-at-sign".data) 10)
     (by decide) (by decide)⟩

/-- Once parseRule's machine is in the owners state it never returns to
the pattern state. -/
theorem ruleLoop_owners_final (orig : List Char) (mm : List OwnerMatcher) :
    ∀ (cs : List Char) i esc buf pat ows res,
      ruleLoop orig mm i cs .owners esc buf pat ows = .ok res →
      res.state = .owners := by
  intro cs
  induction cs with
  | nil =>
    intro i esc buf pat ows res h
    rw [ruleLoop] at h
    cases Except.ok.inj h
    rfl
  | cons c cs ih =>
    intro i esc buf pat ows res h
    rw [ruleLoop] at h
    by_cases hc : c = '#'
    · rw [if_pos hc] at h
      cases Except.ok.inj h
      rfl
    · rw [if_neg hc] at h
      by_cases hw : isWhitespace c = true
      · rw [if_pos hw] at h
        by_cases hb : buf.isEmpty
        · rw [if_pos hb] at h
          exact ih _ _ _ _ _ _ h
        · rw [if_neg hb] at h
          rcases hno : newOwner buf mm with e | o <;> rw [hno] at h
          · exact absurd h (by simp)
          · exact ih _ _ _ _ _ _ h
      · rw [if_neg hw] at h
        by_cases hoc : isOwnersChar c = true
        · rw [if_pos hoc] at h
          exact ih _ _ _ _ _ _ h
        · rw [if_neg hoc] at h
          exact absurd h (by simp)

/-- If parseRule's machine starts in the pattern state and is still in the
pattern state at end of line, then it never flushed an owner token nor
compiled a pattern: the accumulated owners and pattern are unchanged. -/
theorem ruleLoop_pattern_final_inv (orig : List Char) (mm : List OwnerMatcher) :
    ∀ (cs : List Char) i esc buf pat ows res,
      ruleLoop orig mm i cs .pattern esc buf pat ows = .ok res →
      res.state = .pattern →
      res.owners = ows ∧ res.pat = pat := by
  intro cs
  induction cs with
  | nil =>
    intro i esc buf pat ows res h _
    rw [ruleLoop] at h
    cases Except.ok.inj h
    exact ⟨rfl, rfl⟩
  | cons c cs ih =>
    intro i esc buf pat ows res h hst
    rw [ruleLoop] at h
    by_cases hc : c = '#'
    · rw [if_pos hc] at h
      cases Except.ok.inj h
      exact ⟨rfl, rfl⟩
    · rw [if_neg hc] at h
      by_cases hbs : c = '\\'
      · rw [if_pos hbs] at h
        exact ih _ _ _ _ _ _ h hst
      · rw [if_neg hbs] at h
        by_cases hw : (isWhitespace c && !esc) = true
        · rw [if_pos hw] at h
          rcases hnp : newPattern buf with e | p <;> rw [hnp] at h
          · exact absurd h (by simp)
          · exact absurd (ruleLoop_owners_final orig mm _ _ _ _ _ _ _ h) (by rw [hst]; simp)
        · rw [if_neg hw] at h
          by_cases hpc : (isPatternChar c || (isWhitespace c && esc)) = true
          · rw [if_pos hpc] at h
            exact ih _ _ _ _ _ _ h hst
          · rw [if_neg hpc] at h
            exact absurd h (by simp)

/-- C5: if parseRule's loop reaches end of line still in the Pattern state,
then with a non-empty buffer the buffer is compiled into the rule's pattern
and parsing succeeds with zero explicit owners (the owners are exactly the
inherited ones), while with an empty buffer parsing fails with the
"unexpected end of rule" error. -/
theorem parseRule_end_in_pattern_state (ruleStr : List Char)
    (mm : List OwnerMatcher) (inh : List Owner) (res : RuleLoopOut)
    (hloop : ruleLoop ruleStr mm 0 (trimSpace ruleStr) .pattern false []
      emptyPattern [] = .ok res)
    (hst : res.state = .pattern) :
    parseRule ruleStr mm inh =
      if res.buf.isEmpty then .error .endOfRule
      else
        match newPattern res.buf with
        | .ok p => .ok ⟨0, p, inh, res.comment⟩
        | .error e => .error (.patternErr e) := by
  obtain ⟨hows, -⟩ := ruleLoop_pattern_final_inv ruleStr mm _ _ _ _ _ _ _ hloop hst
  unfold parseRule
  rw [hloop]
  dsimp only
  rw [hst, hows]
  by_cases hb : res.buf.isEmpty = true
  · simp [hb]
  · rcases hnp : newPattern res.buf with e | p <;> simp [hb, hnp]

/-- Witness for C5: `file.txt` (no owner part) ends in the Pattern state
with buffer `file.txt` and compiles it with zero explicit owners; the
empty line ends in the Pattern state with an empty buffer and fails with
"unexpected end of rule". -/
theorem parseRule_end_in_pattern_state_witness :
    ruleLoop "file.txt".data DefaultOwnerMatchers 0 (trimSpace "file.txt".data)
        .pattern false [] emptyPattern [] =
      .ok ⟨.pattern, "file.txt".data, emptyPattern, [], []⟩ ∧
    parseRule "file.txt".data DefaultOwnerMatchers [] =
      (if ("file.txt".data : List Char).isEmpty then .error .endOfRule
       else
         match newPattern "file.txt".data with
         | .ok p => .ok ⟨0, p, [], []⟩
         | .error e => .error (.patternErr e)) ∧
    parseRule "".data DefaultOwnerMatchers [] = .error .endOfRule :=
  ⟨by decide,
   parseRule_end_in_pattern_state "file.txt".data DefaultOwnerMatchers []
     ⟨.pattern, "file.txt".data, emptyPattern, [], []⟩ (by decide) (by decide),
   by
     have := parseRule_end_in_pattern_state "".data DefaultOwnerMatchers []
       ⟨.pattern, [], emptyPattern, [], []⟩ (by decide) (by decide)
     simpa using this⟩

/-- The untrimmed line is only consulted when a `#` is found, so on a
`#`-free stretch the loop's result does not depend on it. -/
theorem ruleLoop_orig_irrelevant (mm : List OwnerMatcher) :
    ∀ (cs : List Char), '#' ∉ cs →
      ∀ (orig orig' : List Char) i st esc buf pat ows,
        ruleLoop orig mm i cs st esc buf pat ows =
          ruleLoop orig' mm i cs st esc buf pat ows := by
  intro cs
  induction cs with
  | nil => intro _ orig orig' i st esc buf pat ows; rw [ruleLoop, ruleLoop]
  | cons c cs ih =>
    intro hnoh orig orig' i st esc buf pat ows
    have hc : c ≠ '#' := fun h => hnoh (by simp [h])
    have hrest : '#' ∉ cs := fun h => hnoh (by simp [h])
    cases st
    · rw [ruleLoop, ruleLoop, if_neg hc, if_neg hc]
      by_cases hbs : c = '\\'
      · rw [if_pos hbs, if_pos hbs]
        exact ih hrest _ _ _ _ _ _ _ _
      · rw [if_neg hbs, if_neg hbs]
        by_cases hw : (isWhitespace c && !esc) = true
        · rw [if_pos hw, if_pos hw]
          rcases newPattern buf with e | p
          · rfl
          · exact ih hrest _ _ _ _ _ _ _ _
        · rw [if_neg hw, if_neg hw]
          by_cases hpc : (isPatternChar c || (isWhitespace c && esc)) = true
          · rw [if_pos hpc, if_pos hpc]
            exact ih hrest _ _ _ _ _ _ _ _
          · rw [if_neg hpc, if_neg hpc]
    · rw [ruleLoop, ruleLoop, if_neg hc, if_neg hc]
      by_cases hw : isWhitespace c = true
      · rw [if_pos hw, if_pos hw]
        by_cases hb : buf.isEmpty
        · rw [if_pos hb, if_pos hb]
          exact ih hrest _ _ _ _ _ _ _ _
        · rw [if_neg hb, if_neg hb]
          rcases newOwner buf mm with e | o
          · rfl
          · exact ih hrest _ _ _ _ _ _ _ _
      · rw [if_neg hw, if_neg hw]
        by_cases hoc : isOwnersChar c = true
        · rw [if_pos hoc, if_pos hoc]
          exact ih hrest _ _ _ _ _ _ _ _
        · rw [if_neg hoc, if_neg hoc]

/-- Splitting the loop at the first `#`: running over `cs ++ '#' :: b`
equals running over `cs` and, on success, storing the remainder of the
original line after the `#` as the comment. -/
theorem ruleLoop_split_at_hash (mm : List OwnerMatcher) :
    ∀ (cs : List Char), '#' ∉ cs →
      ∀ (b orig : List Char) i st esc buf pat ows,
        ruleLoop orig mm i (cs ++ '#' :: b) st esc buf pat ows =
          match ruleLoop orig mm i cs st esc buf pat ows with
          | .ok res => .ok { res with comment := trimSpace (orig.drop (i + cs.length + 1)) }
          | .error e => .error e := by
  intro cs
  induction cs with
  | nil =>
    intro _ b orig i st esc buf pat ows
    rw [List.nil_append]
    cases st <;> rw [ruleLoop, ruleLoop, if_pos rfl] <;> simp
  | cons c cs ih =>
    intro hnoh b orig i st esc buf pat ows
    have hc : c ≠ '#' := fun h => hnoh (by simp [h])
    have hrest : '#' ∉ cs := fun h => hnoh (by simp [h])
    have hlen : i + (c :: cs).length + 1 = (i + 1) + cs.length + 1 := by
      simp only [List.length_cons]
      omega
    rw [List.cons_append, hlen]
    cases st
    · rw [ruleLoop, ruleLoop, if_neg hc, if_neg hc]
      by_cases hbs : c = '\\'
      · rw [if_pos hbs, if_pos hbs, ih hrest]
      · rw [if_neg hbs, if_neg hbs]
        by_cases hw : (isWhitespace c && !esc) = true
        · rw [if_pos hw, if_pos hw]
          rcases newPattern buf with e | p <;> dsimp only
          rw [ih hrest]
        · rw [if_neg hw, if_neg hw]
          by_cases hpc : (isPatternChar c || (isWhitespace c && esc)) = true
          · rw [if_pos hpc, if_pos hpc, ih hrest]
          · rw [if_neg hpc, if_neg hpc]
    · rw [ruleLoop, ruleLoop, if_neg hc, if_neg hc]
      by_cases hw : isWhitespace c = true
      · rw [if_pos hw, if_pos hw]
        by_cases hb : buf.isEmpty
        · rw [if_pos hb, if_pos hb, ih hrest]
        · rw [if_neg hb, if_neg hb]
          rcases newOwner buf mm with e | o <;> dsimp only
          rw [ih hrest]
      · rw [if_neg hw, if_neg hw]
        by_cases hoc : isOwnersChar c = true
        · rw [if_pos hoc, if_pos hoc, ih hrest]
        · rw [if_neg hoc, if_neg hoc]

/-- Counterexample to C6 as stated: in `foo\#bar` the `#` is immediately
preceded by an unconsumed `\` (the machine's escape flag is set), yet it
still starts the comment: the parsed rule has pattern source `foo\` and
comment `bar`, where the claim demands the escaped `#` not start a
comment. -/
theorem escaped_hash_still_starts_comment_cex :
    (parseRule "foo\\#bar".data DefaultOwnerMatchers []).map
        (fun r => (r.pattern.source, r.comment)) =
      .ok ("foo\\".data, "bar".data) := by decide

/-- C6 amended: every `#` — escaped or not — truncates the remainder of
the line into the Comment field and stops further state transitions: on a
trimmed line `a ++ '#' :: b` whose prefix `a` is `#`-free and parses to a
rule `r`, the whole line parses to `r` with comment `trimSpace b`. -/
theorem hash_always_starts_comment (mm : List OwnerMatcher) (inh : List Owner)
    (a b : List Char) (r : Rule)
    (hnoh : '#' ∉ a)
    (htrima : trimSpace a = a)
    (htrimfull : trimSpace (a ++ '#' :: b) = a ++ '#' :: b)
    (hok : parseRule a mm inh = .ok r) :
    parseRule (a ++ '#' :: b) mm inh = .ok { r with comment := trimSpace b } := by
  unfold parseRule at hok ⊢
  rw [htrima] at hok
  rw [htrimfull, ruleLoop_split_at_hash mm a hnoh,
    ruleLoop_orig_irrelevant mm a hnoh (a ++ '#' :: b) a]
  have hdrop : (a ++ '#' :: b).drop (0 + a.length + 1) = b := by
    simp
  rw [hdrop]
  rcases hl : ruleLoop a mm 0 a .pattern false [] emptyPattern [] with e | res <;>
    rw [hl] at hok
  · exact absurd hok (by simp)
  · rcases res with ⟨st, buf, pat, ows, comment⟩
    dsimp only at hok ⊢
    cases st
    · dsimp only at hok ⊢
      by_cases hb : buf.isEmpty
      · rw [if_pos hb] at hok
        exact absurd hok (by simp)
      · rw [if_neg hb] at hok
        rw [if_neg hb]
        rcases hnp : newPattern buf with e | p
        · rw [hnp] at hok
          simp at hok
        · rw [hnp] at hok
          dsimp only at hok ⊢
          rw [← Except.ok.inj hok]
    · dsimp only at hok ⊢
      by_cases hb : buf.isEmpty
      · rw [if_pos hb] at hok
        rw [if_pos hb]
        rw [← Except.ok.inj hok]
      · rw [if_neg hb] at hok
        rw [if_neg hb]
        rcases hno : newOwner buf mm with e | o
        · rw [hno] at hok
          simp at hok
        · rw [hno] at hok
          dsimp only at hok ⊢
          rw [← Except.ok.inj hok]

/-- Witness for C6 amended: `foo.txt @u` parses to a rule; appending
`# hi` gives the same rule with comment `hi`. -/
theorem hash_always_starts_comment_witness :
    ('#' ∉ "foo.txt @u".data) ∧
    parseRule "foo.txt @u".data DefaultOwnerMatchers [] =
      .ok ⟨0, ⟨"foo.txt".data, false, false,
        [.lit 'f', .lit 'o', .lit 'o', .lit '.', .lit 't', .lit 'x', .lit 't']⟩,
        [⟨"u".data, UsernameOwner⟩], []⟩ ∧
    parseRule ("foo.txt @u".data ++ '#' :: " hi".data) DefaultOwnerMatchers [] =
      .ok ⟨0, ⟨"foo.txt".data, false, false,
        [.lit 'f', .lit 'o', .lit 'o', .lit '.', .lit 't', .lit 'x', .lit 't']⟩,
        [⟨"u".data, UsernameOwner⟩], "hi".data⟩ :=
  ⟨by decide, by decide, by
    have := hash_always_starts_comment DefaultOwnerMatchers []
      "foo.txt @u".data " hi".data
      ⟨0, ⟨"foo.txt".data, false, false,
        [.lit 'f', .lit 'o', .lit 'o', .lit '.', .lit 't', .lit 'x', .lit 't']⟩,
        [⟨"u".data, UsernameOwner⟩], []⟩
      (by decide) (by decide) (by decide) (by decide)
    simpa using this⟩

/-- Counterexample to C7 as stated: the line `" # note"` is blank-free and
its first non-space character is `#`, yet ParseFile does not ignore it — it
reaches parseRule, whose trimmed text starts with `#`, leaving an empty
pattern buffer: the parse fails with "unexpected end of rule" at line 1. -/
theorem indented_comment_line_not_skipped_cex :
    ParseFile DefaultOwnerMatchers [" # note".data] =
      .error (.line 1 .endOfRule) := by decide

/-- C7 amended: ParseFile emits no Rule and no error for a line that is
blank (only whitespace) or whose first character (not first non-space
character) is `#`; the scan continues on the remaining lines with the line
counter advanced, so such skipped lines still count for the line numbers
of surrounding rules.  (A line whose first non-space character is `#` but
that starts with whitespace is instead parsed as a rule and fails.) -/
theorem blank_and_hash_lines_skipped (mm : List OwnerMatcher)
    (ln : List Char) (rest : List (List Char)) (n : Nat) (so : List Owner)
    (rs : List Rule)
    (h : (trimSpace ln).isEmpty = true ∨ ln.head? = some '#') :
    runLines mm (ln :: rest) n so rs = runLines mm rest (n + 1) so rs := by
  rw [runLines]
  have hc : ((trimSpace ln).isEmpty || ln.head? == some '#') = true := by
    rcases h with h | h
    · simp [h]
    · simp [h]
  rw [if_pos hc]

/-- Witness for C7 amended: a `#`-first line is skipped and the next line
becomes line 2. -/
theorem blank_and_hash_lines_skipped_witness :
    ((trimSpace "# note".data).isEmpty = true ∨ "# note".data.head? = some '#') ∧
    runLines DefaultOwnerMatchers ["# note".data, "a @u".data] 0 [] [] =
      runLines DefaultOwnerMatchers ["a @u".data] (0 + 1) [] [] :=
  ⟨Or.inr (by decide),
   blank_and_hash_lines_skipped DefaultOwnerMatchers "# note".data
     ["a @u".data] 0 [] [] (Or.inr (by decide))⟩

/-- The default matchers only ever report a match or `ErrNoMatch`. -/
theorem defaultMatchers_wf :
    ∀ m ∈ DefaultOwnerMatchers, ∀ s e, m s ≠ MatchRes.fail e := by
  intro m hm s e
  have hm4 : m = MatchEmailOwner ∨ m = MatchTeamOwner ∨
      m = MatchUsernameOwner ∨ m = MatchGroupOwner := by
    simpa [DefaultOwnerMatchers] using hm
  rcases hm4 with rfl | rfl | rfl | rfl
  · unfold MatchEmailOwner
    split <;> simp
  · unfold MatchTeamOwner
    split
    · split <;> simp
    · simp
  · unfold MatchUsernameOwner
    split
    · split <;> simp
    · simp
  · unfold MatchGroupOwner
    split
    · split <;> simp
    · simp

/-- With matchers that never return a hard error, newOwner either
classifies the token or reports `ErrInvalidOwnerFormat` on that very
token. -/
theorem newOwner_wf :
    ∀ (mm : List OwnerMatcher), (∀ m ∈ mm, ∀ s e, m s ≠ MatchRes.fail e) →
      ∀ s, (∃ o, newOwner s mm = .ok o) ∨
        newOwner s mm = .error (.invalidFormat s) := by
  intro mm
  induction mm with
  | nil => exact fun _ s => Or.inr rfl
  | cons m mm ih =>
    intro hwf s
    have hm := hwf m (by simp)
    have hrest : ∀ m' ∈ mm, ∀ s e, m' s ≠ MatchRes.fail e :=
      fun m' h => hwf m' (by simp [h])
    rcases hms : m s with o | _ | e
    · rw [newOwner, hms]
      exact Or.inl ⟨o, rfl⟩
    · rw [newOwner, hms]
      exact ih hrest s
    · exact absurd hms (hm s e)

/-- Counterexample to C8 as stated: in `x bad#y` the token `bad` starts at
column 3, but the invalid-owner error produced when the buffer is flushed
at the `#` boundary reports position `len("x bad#y")+1-len("bad") = 5`:
the reported position is not the column of the token's first character. -/
theorem owner_error_position_not_token_start_cex :
    parseRule "x bad#y".data DefaultOwnerMatchers [] =
      .error (.ownerErr (.invalidFormat "bad".data) 5) ∧
    (("x bad#y".data).drop (5 - 1)).take ("bad".data).length ≠ "bad".data ∧
    (("x bad#y".data).drop (3 - 1)).take ("bad".data).length = "bad".data := by
  decide

/-- Position bookkeeping of parseRule's loop: the owner buffer always
holds exactly the last `buf.length` characters of the processed prefix,
so an invalid-owner error raised at index `i` with position `i+1-len(buf)`
points at the buffer's first character; and on a `#`-free stretch the
leftover buffer is a suffix of the whole input. -/
theorem ruleLoop_invalid_owner_position (mm : List OwnerMatcher)
    (hwf : ∀ m ∈ mm, ∀ s e, m s ≠ MatchRes.fail e) (orig : List Char) :
    ∀ (cs pre : List Char) (st : PState) (esc : Bool) (buf : List Char)
      (pat : Pattern) (ows : List Owner),
      '#' ∉ cs →
      buf.length ≤ pre.length →
      pre.drop (pre.length - buf.length) = buf →
      (∀ tok pos,
        ruleLoop orig mm pre.length cs st esc buf pat ows =
          .error (.ownerErr (.invalidFormat tok) pos) →
        1 ≤ pos ∧ ((pre ++ cs).drop (pos - 1)).take tok.length = tok ∧
          newOwner tok mm = .error (.invalidFormat tok)) ∧
      (∀ res,
        ruleLoop orig mm pre.length cs st esc buf pat ows = .ok res →
        res.buf.length ≤ (pre ++ cs).length ∧
        (pre ++ cs).drop ((pre ++ cs).length - res.buf.length) = res.buf) := by
  intro cs
  induction cs with
  | nil =>
    intro pre st esc buf pat ows _ hle hdrop
    constructor
    · intro tok pos h
      cases st <;> rw [ruleLoop] at h <;> exact absurd h (by simp)
    · intro res h
      cases st <;> rw [ruleLoop] at h <;> cases Except.ok.inj h <;>
        exact ⟨by simpa using hle, by simpa using hdrop⟩
  | cons c cs ih =>
    intro pre st esc buf pat ows hnoh hle hdrop
    have hc : c ≠ '#' := fun h => hnoh (by simp [h])
    have hrest : '#' ∉ cs := fun h => hnoh (by simp [h])
    have hplen : (pre ++ [c]).length = pre.length + 1 := by simp
    have hassoc : pre ++ c :: cs = (pre ++ [c]) ++ cs := by simp
    have hext_le : (buf ++ [c]).length ≤ (pre ++ [c]).length := by
      simp only [List.length_append, List.length_cons, List.length_nil]
      omega
    have hext_drop : (pre ++ [c]).drop ((pre ++ [c]).length - (buf ++ [c]).length)
        = buf ++ [c] := by
      have hk : (pre ++ [c]).length - (buf ++ [c]).length
          = pre.length - buf.length := by
        simp only [List.length_append, List.length_cons, List.length_nil]
        omega
      rw [hk, List.drop_append_of_le_length (by omega), hdrop]
    have hemp_le : ([] : List Char).length ≤ (pre ++ [c]).length := by simp
    have hemp_drop : (pre ++ [c]).drop ((pre ++ [c]).length
        - ([] : List Char).length) = ([] : List Char) := by simp
    have step :
        ∀ st' esc' buf' pat' ows',
          buf'.length ≤ (pre ++ [c]).length →
          (pre ++ [c]).drop ((pre ++ [c]).length - buf'.length) = buf' →
          (∀ tok pos,
            ruleLoop orig mm (pre.length + 1) cs st' esc' buf' pat' ows' =
              .error (.ownerErr (.invalidFormat tok) pos) →
            1 ≤ pos ∧ ((pre ++ c :: cs).drop (pos - 1)).take tok.length = tok ∧
              newOwner tok mm = .error (.invalidFormat tok)) ∧
          (∀ res,
            ruleLoop orig mm (pre.length + 1) cs st' esc' buf' pat' ows' = .ok res →
            res.buf.length ≤ (pre ++ c :: cs).length ∧
            (pre ++ c :: cs).drop ((pre ++ c :: cs).length - res.buf.length)
              = res.buf) := by
      intro st' esc' buf' pat' ows' h1 h2
      have H := ih (pre ++ [c]) st' esc' buf' pat' ows' hrest h1 h2
      rw [hplen] at H
      rw [hassoc]
      exact H
    cases st
    · rw [ruleLoop, if_neg hc]
      by_cases hbs : c = '\\'
      · rw [if_pos hbs]
        subst hbs
        exact step _ _ _ _ _ hext_le hext_drop
      · rw [if_neg hbs]
        by_cases hw : (isWhitespace c && !esc) = true
        · rw [if_pos hw]
          rcases newPattern buf with e' | p
          · exact ⟨fun tok pos h => absurd h (by simp),
              fun res h => absurd h (by simp)⟩
          · exact step _ _ _ _ _ hemp_le hemp_drop
        · rw [if_neg hw]
          by_cases hpc : (isPatternChar c || (isWhitespace c && esc)) = true
          · rw [if_pos hpc]
            exact step _ _ _ _ _ hext_le hext_drop
          · rw [if_neg hpc]
            exact ⟨fun tok pos h => absurd h (by simp),
              fun res h => absurd h (by simp)⟩
    · rw [ruleLoop, if_neg hc]
      by_cases hw : isWhitespace c = true
      · rw [if_pos hw]
        by_cases hb : buf.isEmpty
        · rw [if_pos hb]
          have hbnil : buf = [] := by simpa using hb
          subst hbnil
          exact step _ _ _ _ _ hemp_le hemp_drop
        · rw [if_neg hb]
          rcases hno : newOwner buf mm with e' | o
          · have hwfres := newOwner_wf mm hwf buf
            rcases hwfres with ⟨o, ho⟩ | herr
            · rw [ho] at hno
              exact absurd hno (by simp)
            · rw [herr] at hno
              have he : e' = .invalidFormat buf := (Except.error.inj hno).symm
              subst he
              constructor
              · intro tok pos h
                have hinj := ParseErr.ownerErr.inj (Except.error.inj h)
                obtain ⟨hfmt, hpos⟩ := hinj
                have htok : buf = tok := OwnerErr.invalidFormat.inj hfmt
                subst htok
                subst hpos
                refine ⟨by omega, ?_, herr⟩
                have hpos1 : pre.length + 1 - buf.length - 1
                    = pre.length - buf.length := by omega
                rw [hpos1, List.drop_append_of_le_length (by omega), hdrop,
                  List.take_left]
              · intro res h
                exact absurd h (by simp)
          · exact step _ _ _ _ _ hemp_le hemp_drop
      · rw [if_neg hw]
        by_cases hoc : isOwnersChar c = true
        · rw [if_pos hoc]
          exact step _ _ _ _ _ hext_le hext_drop
        · rw [if_neg hoc]
          exact ⟨fun tok pos h => absurd h (by simp),
            fun res h => absurd h (by simp)⟩

/-- C8 amended: when no owner matcher accepts a token, parsing fails with
an invalid-owner-format error; on a trimmed, comment-free line the
reported position is the 1-based column of the first character of the
offending token (position = end-of-token minus token length).  (When a
token is instead flushed at a `#` boundary, the code reports
`len(line)+1-len(token)`, which is not the token's start — see the
counterexample.) -/
theorem invalid_owner_position_is_token_start (mm : List OwnerMatcher)
    (inh : List Owner) (line tok : List Char) (pos : Nat)
    (hwf : ∀ m ∈ mm, ∀ s e, m s ≠ MatchRes.fail e)
    (htrim : trimSpace line = line)
    (hnoh : '#' ∉ line)
    (herr : parseRule line mm inh = .error (.ownerErr (.invalidFormat tok) pos)) :
    1 ≤ pos ∧ (line.drop (pos - 1)).take tok.length = tok ∧
      newOwner tok mm = .error (.invalidFormat tok) := by
  unfold parseRule at herr
  rw [htrim] at herr
  have hmain := ruleLoop_invalid_owner_position mm hwf line line [] .pattern
    false [] emptyPattern [] hnoh (by simp) (by simp)
  simp only [List.nil_append, List.length_nil] at hmain
  rcases hloop : ruleLoop line mm 0 line .pattern false [] emptyPattern []
    with e | res <;> rw [hloop] at herr
  · exact hmain.1 tok pos (by rw [hloop, Except.error.inj herr])
  · have hres := hmain.2 res hloop
    dsimp only at herr
    rcases res with ⟨st, buf, pat, ows, comment⟩
    dsimp only at herr hres
    cases st
    · dsimp only at herr
      by_cases hb : buf.isEmpty
      · rw [if_pos hb] at herr
        exact absurd herr (by simp)
      · rw [if_neg hb] at herr
        rcases hnp : newPattern buf with e' | p <;> rw [hnp] at herr <;>
          exact absurd herr (by simp)
    · dsimp only at herr
      by_cases hb : buf.isEmpty
      · rw [if_pos hb] at herr
        exact absurd herr (by simp)
      · rw [if_neg hb] at herr
        rcases hno : newOwner buf mm with e' | o <;> rw [hno] at herr
        · have hwfres := newOwner_wf mm hwf buf
          rcases hwfres with ⟨o, ho⟩ | hinv
          · rw [ho] at hno
            exact absurd hno (by simp)
          · rw [hinv] at hno
            have he : e' = .invalidFormat buf := (Except.error.inj hno).symm
            subst he
            dsimp only at herr
            have hinj := ParseErr.ownerErr.inj (Except.error.inj herr)
            obtain ⟨hfmt, hpos⟩ := hinj
            have htok : buf = tok := OwnerErr.invalidFormat.inj hfmt
            subst htok
            subst hpos
            obtain ⟨hle, hdrop⟩ := hres
            refine ⟨by omega, ?_, hinv⟩
            have hpos1 : line.length + 1 - buf.length - 1
                = line.length - buf.length := by omega
            rw [hpos1, hdrop, List.take_length]
        · exact absurd herr (by simp)

/-- Witness for C8 amended, on the spec's concrete example: the rule text
`file.txt missing-at-sign` fails with an invalid-owner-format error at
position 10, and 10 is the 1-based column of the token's first
character. -/
theorem invalid_owner_position_is_token_start_witness :
    trimSpace "file.txt missing-at-sign".data = "file.txt missing-at-sign".data ∧
    parseRule "file.txt missing-at-sign".data DefaultOwnerMatchers [] =
      .error (.ownerErr (.invalidFormat "missing-at-sign".data) 10) ∧
    (1 ≤ 10 ∧
      (("file.txt missing-at-sign".data).drop (10 - 1)).take
          ("missing-at-sign".data).length = "missing-at-sign".data ∧
      newOwner "missing-at-sign".data DefaultOwnerMatchers =
        .error (.invalidFormat "missing-at-sign".data)) :=
  ⟨by decide, by decide,
   invalid_owner_position_is_token_start DefaultOwnerMatchers []
     "file.txt missing-at-sign".data "missing-at-sign".data 10
     defaultMatchers_wf (by decide) (by decide) (by decide)⟩

/-- C9: newOwner tries the matchers in list order and returns the Owner
produced by the first matcher that succeeds; if every matcher reports no
match, classification fails with an invalid-owner-format error naming the
offending token. -/
theorem newOwner_first_success (s : List Char) :
    (∀ mm : List OwnerMatcher, (∀ m ∈ mm, m s = .noMatch) →
      newOwner s mm = .error (.invalidFormat s)) ∧
    (∀ (mm1 : List OwnerMatcher) (m : OwnerMatcher) (mm2 : List OwnerMatcher)
        (o : Owner),
      (∀ m' ∈ mm1, m' s = .noMatch) → m s = .ok o →
      newOwner s (mm1 ++ m :: mm2) = .ok o) := by
  constructor
  · intro mm
    induction mm with
    | nil => exact fun _ => rfl
    | cons m mm ih =>
      intro h
      rw [newOwner, h m (by simp)]
      exact ih fun m' hm' => h m' (by simp [hm'])
  · intro mm1
    induction mm1 with
    | nil =>
      intro m mm2 o _ hm
      rw [List.nil_append, newOwner, hm]
    | cons m1 mm1 ih =>
      intro m mm2 o hall hm
      rw [List.cons_append, newOwner, hall m1 (by simp)]
      exact ih m mm2 o (fun m' h => hall m' (by simp [h])) hm

/-- Witness for C9: with the default matcher order, `@user` is rejected by
the email and team matchers and classified by the username matcher; and
`missing-at-sign` is rejected by all matchers, giving the invalid-format
error. -/
theorem newOwner_first_success_witness :
    (∀ m ∈ [MatchEmailOwner, MatchTeamOwner], m "@user".data = .noMatch) ∧
    MatchUsernameOwner "@user".data = .ok ⟨"user".data, UsernameOwner⟩ ∧
    newOwner "@user".data
        ([MatchEmailOwner, MatchTeamOwner] ++
          MatchUsernameOwner :: [MatchGroupOwner]) =
      .ok ⟨"user".data, UsernameOwner⟩ ∧
    (∀ m ∈ DefaultOwnerMatchers, m "missing-at-sign".data = .noMatch) ∧
    newOwner "missing-at-sign".data DefaultOwnerMatchers =
      .error (.invalidFormat "missing-at-sign".data) :=
  ⟨by decide, by decide,
   (newOwner_first_success "@user".data).2 [MatchEmailOwner, MatchTeamOwner]
     MatchUsernameOwner [MatchGroupOwner] ⟨"user".data, UsernameOwner⟩
     (by decide) (by decide),
   by decide,
   (newOwner_first_success "missing-at-sign".data).1 DefaultOwnerMatchers
     (by decide)⟩

/-- Model of the Go statements `rule := r[i]; return &rule, err`
(codeowners.go 8-14): the matched slice element is copied into a fresh
local variable and a pointer to that fresh storage is returned.  The heap
cells backing the ruleset are the indices `0..len-1`; the fresh cell is a
new index appended after them, whose address is returned. -/
def matchAlloc (rules : List Rule) (path : List Char) : Option Nat × List Rule :=
  match rulesetMatch rules path with
  | some rule => (some rules.length, rules ++ [rule])
  | none => (none, rules)

/-- C10: calling `Ruleset.Match` leaves the ruleset's cells unchanged, and
the returned pointer addresses a fresh cell holding a copy of the matching
rule, so overwriting that cell with any value alters no element of the
ruleset. -/
theorem rulesetMatch_fresh_copy (rules : List Rule) (path : List Char) :
    (∀ j, j < rules.length → (matchAlloc rules path).2[j]? = rules[j]?) ∧
    (∀ a, (matchAlloc rules path).1 = some a →
      (matchAlloc rules path).2[a]? = rulesetMatch rules path ∧
      ∀ (v : Rule) (j : Nat), j < rules.length →
        ((matchAlloc rules path).2.set a v)[j]? = rules[j]?) := by
  unfold matchAlloc
  rcases hm : rulesetMatch rules path with _ | rule
  · exact ⟨fun j _ => rfl, fun a ha => absurd ha (by simp)⟩
  · constructor
    · intro j hj
      dsimp only
      rw [List.getElem?_append_left hj]
    · intro a ha
      dsimp only at ha
      have ha' : a = rules.length := (Option.some.inj ha).symm
      subst ha'
      constructor
      · dsimp only
        rw [List.getElem?_append_right (le_refl _)]
        simp
      · intro v j hj
        dsimp only
        rw [List.getElem?_set_ne (by omega), List.getElem?_append_left hj]

/-- Witness for C10: a one-rule ruleset; the call returns address 1 (the
fresh cell), that cell holds the matched rule, and overwriting it leaves
cell 0 unchanged. -/
theorem rulesetMatch_fresh_copy_witness :
    (matchAlloc [(⟨1, ⟨"*".data, false, false, [.star]⟩, [], []⟩ : Rule)]
        "x".data).1 = some 1 ∧
    ((matchAlloc [(⟨1, ⟨"*".data, false, false, [.star]⟩, [], []⟩ : Rule)]
        "x".data).2[1]? =
      rulesetMatch [(⟨1, ⟨"*".data, false, false, [.star]⟩, [], []⟩ : Rule)]
        "x".data ∧
     ∀ (v : Rule) (j : Nat),
       j < [(⟨1, ⟨"*".data, false, false, [.star]⟩, [], []⟩ : Rule)].length →
       ((matchAlloc [(⟨1, ⟨"*".data, false, false, [.star]⟩, [], []⟩ : Rule)]
           "x".data).2.set 1 v)[j]? =
         [(⟨1, ⟨"*".data, false, false, [.star]⟩, [], []⟩ : Rule)][j]?) :=
  ⟨by decide,
   (rulesetMatch_fresh_copy
       [(⟨1, ⟨"*".data, false, false, [.star]⟩, [], []⟩ : Rule)] "x".data).2 1
     (by decide)⟩

end Codeowners
